import Mathlib

/-!
Verification development for the airspy-fmradion decoder.

The C++ sources are shallowly embedded over exact rational arithmetic:
`double`/`float` values become `ℚ`, machine integers become `ℕ`/`ℤ` with
explicit reductions modulo powers of two where the source relies on
wrap-around, and sample vectors become `List ℚ` (complex IQ samples become
`ℚ × ℚ`).  Library transcendentals (`sin`, `cos`, `exp`) and helper code
whose sources are not part of the given files (`Utility::fast_atan2f`,
the sub-filters used by `FmDecoder`) are abstracted as oracle functions;
the proved properties hold for every choice of oracle.
-/

/-! ## AudioOutput.cpp: S16LE sample encoding -/

/-- Clamping step of `AudioOutput::samplesToInt16`:
`s = std::max(Sample(-1.0), std::min(Sample(1.0), s))`. -/
def clampSample (s : ℚ) : ℚ := max (-1) (min 1 s)

/-- The value `lrint(s * 32767)` of `AudioOutput::samplesToInt16`
(rounding to the nearest integer), followed by the conversion
`unsigned long u = v` (reduction modulo 2^64). -/
def sampleToWord (s : ℚ) : ℕ :=
  ((round (clampSample s * 32767) : ℤ) % (2 ^ 64)).toNat

/-- The two bytes `u & 0xff` and `(u >> 8) & 0xff` emitted per sample by
`AudioOutput::samplesToInt16`. -/
def sampleBytes (s : ℚ) : List ℕ :=
  [sampleToWord s % 256, sampleToWord s / 2 ^ 8 % 256]

/-- `AudioOutput::samplesToInt16`: encode a list of samples as signed
16-bit little-endian integers, two bytes per sample. -/
def samplesToInt16 (samples : List ℚ) : List ℕ :=
  samples.flatMap sampleBytes

/-- Decoding of one little-endian signed 16-bit two-complement value back
to the rational sample `v / 32767`, as used in the round-trip property. -/
def decodeS16 (b0 b1 : ℕ) : ℚ :=
  let w := b0 + 256 * b1
  let v : ℤ := if w < 32768 then (w : ℤ) else (w : ℤ) - 65536
  (v : ℚ) / 32767

/-! ## FmDecode.cpp: stereo matrixing helpers -/

/-- `FmDecoder::demod_stereo`: multiply the raw stereo buffer pointwise by
twice the baseband signal (`samples_rawstereo[i] *= 2.00 * samples_baseband[i]`). -/
def demod_stereo (samples_baseband samples_rawstereo : List ℚ) : List ℚ :=
  List.zipWith (fun b r => r * (2 * b)) samples_baseband samples_rawstereo

/-- `FmDecoder::mono_to_left_right`: duplicate the mono signal in the
left/right channels. -/
def mono_to_left_right (samples_mono : List ℚ) : List ℚ :=
  (samples_mono.map (fun m => [m, m])).flatten

/-- `FmDecoder::zero_to_left_right`: fill zeros in the left/right channels
(the input is used for the size only). -/
def zero_to_left_right (samples_mono : List ℚ) : List ℚ :=
  (samples_mono.map (fun _ => [(0 : ℚ), 0])).flatten

/-- `FmDecoder::stereo_to_left_right`: boost the L-R signal by 1.017 and
emit the interleaved pair `(m + s, m - s)` for each sample index. -/
def stereo_to_left_right (samples_mono samples_stereo : List ℚ) : List ℚ :=
  (List.zipWith (fun m s0 => [m + 1.017 * s0, m - 1.017 * s0])
    samples_mono samples_stereo).flatten

/-! ## main (part_000): output buffer sizing and the overflow warning -/

/-- Number of channels, `unsigned int nchannel = stereo ? 2 : 1`. -/
def nchannel (stereo : Bool) : ℕ := if stereo then 2 else 1

/-- Output buffer length in samples computed in `main`: default one second
(`pcmrate`); when `bufsecs > 0` it is `(unsigned int)(bufsecs * pcmrate)`
(truncation of a positive value, i.e. the floor); finally raised to the
minimum of 480. -/
def outputbuf_samples (bufsecs : ℚ) (pcmrate : ℕ) : ℕ :=
  let n0 : ℕ := if 0 < bufsecs then (⌊bufsecs * (pcmrate : ℚ)⌋).toNat else pcmrate
  if n0 < 480 then 480 else n0

/-- The minimum-fill argument handed to `write_output_data` by `main`:
`outputbuf_samples * nchannel`. -/
def buf_minfill (bufsecs : ℚ) (pcmrate : ℕ) (stereo : Bool) : ℕ :=
  outputbuf_samples bufsecs pcmrate * nchannel stereo

/-- Modelled from the spec: the formula of the claim for the consumer-side
minimum fill, `max(480, desired_seconds x pcm_rate x channels)`, with the
480-sample minimum applied to the final product. -/
def specBufMinfill (bufsecs : ℚ) (pcmrate channels : ℕ) : ℕ :=
  max 480 ((⌊bufsecs * (pcmrate : ℚ)⌋).toNat * channels)

/-- What the main loop observes at one iteration, as far as the overflow
warning is concerned: the stop flag at the loop head, the number of queued
source samples, and whether the pulled block is empty. -/
structure LoopObs where
  stop : Bool
  queued : ℕ
  empty : Bool

/-- The overflow-warning behaviour of the main loop of `main`: for each
iteration, when the loop head is reached with the stop flag clear, the
warning is printed iff the one-shot flag is still clear and the queued
source samples exceed `10 * ifrate`; the loop then breaks iff the pulled
block is empty.  Returns the number of warnings printed and the number of
blocks decoded. -/
def mainLoop (ifrate : ℚ) (warned : Bool) : List LoopObs → ℕ × ℕ
  | [] => (0, 0)
  | ob :: rest =>
    if ob.stop then (0, 0)
    else
      let emit := !warned && decide ((10 : ℚ) * ifrate < (ob.queued : ℚ))
      let warned2 := warned || emit
      if ob.empty then ((if emit then 1 else 0), 0)
      else
        let p := mainLoop ifrate warned2 rest
        ((if emit then 1 else 0) + p.1, p.2 + 1)

/-! ## FmDecode.cpp: the pilot phase-locked loop -/

/-- A pulse-per-second event, `PilotPhaseLock::PpsEvent`. -/
structure PpsEvent where
  pps_index : ℕ
  sample_index : ℕ
  block_position : ℚ
deriving DecidableEq

/-- Modelled from the spec: the `pilot_frequency` constant (19000) declared
in `FmDecode.h`, which is not among the given sources. -/
def pilot_frequency : ℕ := 19000

/-- Oracles for the transcendental library functions (`sin`, `cos`, `exp`)
and for `Utility::fast_atan2f`, whose source is not among the given files.
Every PLL property below holds for an arbitrary choice. -/
structure PllOsc where
  osin : ℚ → ℚ
  ocos : ℚ → ℚ
  oexp : ℚ → ℚ
  oatan2 : ℚ → ℚ → ℚ

/-- The state of `PilotPhaseLock` (member fields `m_*`). -/
structure PilotPhaseLock where
  minfreq : ℚ
  maxfreq : ℚ
  minsignal : ℚ
  lock_delay : ℕ
  lock_cnt : ℕ
  pilot_level : ℚ
  phasor_a1 : ℚ
  phasor_a2 : ℚ
  phasor_b0 : ℚ
  loopfilter_b0 : ℚ
  loopfilter_b1 : ℚ
  freq : ℚ
  phase : ℚ
  phasor_i1 : ℚ
  phasor_i2 : ℚ
  phasor_q1 : ℚ
  phasor_q2 : ℚ
  loopfilter_x1 : ℚ
  pilot_periods : ℕ
  pps_cnt : ℕ
  sample_cnt : ℕ
  pps_events : List PpsEvent
deriving DecidableEq

/-- The constructor `PilotPhaseLock::PilotPhaseLock(freq, bandwidth,
minsignal)`.  `mpi` stands for the C constant `M_PI`; `int(20.0/bandwidth)`
truncates toward zero, which for positive `bandwidth` is the floor. -/
def PilotPhaseLock.init (osc : PllOsc) (mpi freq bandwidth minsignal : ℚ) :
    PilotPhaseLock :=
  let p1 := osc.oexp (-1.146 * bandwidth * 2 * mpi)
  let p2 := osc.oexp (-5.331 * bandwidth * 2 * mpi)
  let q1 := osc.oexp (-0.1153 * bandwidth * 2 * mpi)
  { minfreq := (freq - bandwidth) * 2 * mpi
    maxfreq := (freq + bandwidth) * 2 * mpi
    minsignal := minsignal
    lock_delay := (⌊20 / bandwidth⌋).toNat
    lock_cnt := 0
    pilot_level := 0
    phasor_a1 := -p1 - p2
    phasor_a2 := p1 * p2
    phasor_b0 := 1 + (-p1 - p2) + p1 * p2
    loopfilter_b0 := 0.62 * bandwidth * 2 * mpi
    loopfilter_b1 := -(0.62 * bandwidth * 2 * mpi) * q1
    freq := freq * 2 * mpi
    phase := 0
    phasor_i1 := 0
    phasor_i2 := 0
    phasor_q1 := 0
    phasor_q2 := 0
    loopfilter_x1 := 0
    pilot_periods := 0
    pps_cnt := 0
    sample_cnt := 0
    pps_events := [] }

/-- The double-frequency output sample of one loop iteration of
`PilotPhaseLock::process`: `cos(2x) = 2 cos(x) cos(x) - 1` in pilot-shift
mode, otherwise `sin(2x) = 2 sin(x) cos(x)`. -/
def pllOut (osc : PllOsc) (pilot_shift : Bool) (phase : ℚ) : ℚ :=
  let psin := osc.osin phase
  let pcos := osc.ocos phase
  if pilot_shift then 2 * pcos * pcos - 1 else 2 * psin * pcos

/-- One iteration body of the per-sample loop of `PilotPhaseLock::process`
(for sample `x` at index `i` of a block of size `n`; `was_locked` is the
lock state captured at block entry).  Returns the updated state and the
emitted double-frequency output sample. -/
def pllStep (osc : PllOsc) (mpi : ℚ) (pilot_shift was_locked : Bool)
    (n i : ℕ) (x : ℚ) (s : PilotPhaseLock) : PilotPhaseLock × ℚ :=
  let psin := osc.osin s.phase
  let pcos := osc.ocos s.phase
  let out := pllOut osc pilot_shift s.phase
  let phasor_i := s.phasor_b0 * (psin * x) - s.phasor_a1 * s.phasor_i1
    - s.phasor_a2 * s.phasor_i2
  let phasor_q := s.phasor_b0 * (pcos * x) - s.phasor_a1 * s.phasor_q1
    - s.phasor_a2 * s.phasor_q2
  let phase_err := osc.oatan2 phasor_q phasor_i
  let freq2 := max s.minfreq (min s.maxfreq
    (s.freq + s.loopfilter_b0 * phase_err + s.loopfilter_b1 * s.loopfilter_x1))
  let phase1 := s.phase + freq2
  let s1 : PilotPhaseLock :=
    { s with
      phasor_i2 := s.phasor_i1
      phasor_i1 := phasor_i
      phasor_q2 := s.phasor_q1
      phasor_q1 := phasor_q
      pilot_level := min s.pilot_level phasor_i
      loopfilter_x1 := phase_err
      freq := freq2
      phase := phase1 }
  if 2 * mpi < phase1 then
    let phase2 := phase1 - 2 * mpi
    let periods := s.pilot_periods + 1
    if periods = pilot_frequency then
      if was_locked then
        let ev : PpsEvent :=
          { pps_index := s.pps_cnt
            sample_index := s.sample_cnt + i
            block_position := (i : ℚ) / (n : ℚ) }
        ({ s1 with
            phase := phase2
            pilot_periods := 0
            pps_events := s1.pps_events ++ [ev]
            pps_cnt := s.pps_cnt + 1 }, out)
      else ({ s1 with phase := phase2, pilot_periods := 0 }, out)
    else ({ s1 with phase := phase2, pilot_periods := periods }, out)
  else (s1, out)

/-- The per-sample loop of `PilotPhaseLock::process` over the remaining
samples, starting at index `i`. -/
def pllLoop (osc : PllOsc) (mpi : ℚ) (pilot_shift was_locked : Bool)
    (n : ℕ) (i : ℕ) (s : PilotPhaseLock) :
    List ℚ → PilotPhaseLock × List ℚ
  | [] => (s, [])
  | x :: xs =>
    let r := pllStep osc mpi pilot_shift was_locked n i x s
    let rest := pllLoop osc mpi pilot_shift was_locked n (i + 1) r.1 xs
    (rest.1, r.2 :: rest.2)

/-- The lock-status update at the end of `PilotPhaseLock::process`:
on `2 * pilot_level > minsignal` the counter accumulates the block size
until it reaches `lock_delay`, otherwise it is reset to zero. -/
def lockUpdate (minsignal : ℚ) (lock_delay : ℕ) (pilot_level : ℚ)
    (lock_cnt n : ℕ) : ℕ :=
  if minsignal < 2 * pilot_level then
    if lock_cnt < lock_delay then lock_cnt + n else lock_cnt
  else 0

/-- `PilotPhaseLock::process`: returns the updated state and the output
block.  For an empty block only the pending event list is cleared (the
function returns right after `m_pps_events.clear()`); otherwise the
per-sample loop runs, the lock status is updated, events are dropped when
the pilot is not locked, and the sample counter advances. -/
def PilotPhaseLock.process (osc : PllOsc) (mpi : ℚ) (pilot_shift : Bool)
    (samples_in : List ℚ) (s : PilotPhaseLock) :
    PilotPhaseLock × List ℚ :=
  let n := samples_in.length
  let was_locked := decide (s.lock_delay ≤ s.lock_cnt)
  let s0 := { s with pps_events := [] }
  if n = 0 then (s0, [])
  else
    let s1 := { s0 with pilot_level := 1000 }
    let r := pllLoop osc mpi pilot_shift was_locked n 0 s1 samples_in
    let s2 := r.1
    let s3 := { s2 with
      lock_cnt := lockUpdate s2.minsignal s2.lock_delay s2.pilot_level s2.lock_cnt n }
    let s4 := if s3.lock_cnt < s3.lock_delay then
        { s3 with pilot_periods := 0, pps_cnt := 0, pps_events := [] }
      else s3
    ({ s4 with sample_cnt := s4.sample_cnt + n }, r.2)

/-- Folding `PilotPhaseLock::process` over a sequence of input blocks. -/
def processBlocks (osc : PllOsc) (mpi : ℚ) (pilot_shift : Bool)
    (s : PilotPhaseLock) : List (List ℚ) → PilotPhaseLock
  | [] => s
  | b :: bs =>
    processBlocks osc mpi pilot_shift
      (PilotPhaseLock.process osc mpi pilot_shift b s).1 bs

/-! ## AudioOutput.cpp: the WAV header -/

/-- `WavAudioOutput::set_value<uint16_t>`: two little-endian bytes of the
value reduced to 16 bits. -/
def setValue16 (v : ℕ) : List ℕ :=
  [v % 2 ^ 16 % 256, v % 2 ^ 16 / 2 ^ 8 % 256]

/-- `WavAudioOutput::set_value<uint32_t>`: four little-endian bytes of the
value reduced to 32 bits (the argument is computed in `unsigned int`
arithmetic in the source, hence the reduction). -/
def setValue32 (v : ℕ) : List ℕ :=
  [v % 2 ^ 32 % 256, v % 2 ^ 32 / 2 ^ 8 % 256,
   v % 2 ^ 32 / 2 ^ 16 % 256, v % 2 ^ 32 / 2 ^ 24 % 256]

/-- `WavAudioOutput::write_header(nsamples)`: the 44 header bytes, built
exactly as in the source (chunk ids are the ASCII codes of "RIFF", "WAVE",
"fmt " and "data"; `bytesPerSample = 2`, `bitsPerSample = 16`,
`WAVE_FORMAT_PCM = 0x0001`). -/
def write_header (nsamples numberOfChannels sampleRate : ℕ) : List ℕ :=
  [82, 73, 70, 70]
    ++ setValue32 (36 + nsamples * 2)
    ++ [87, 65, 86, 69]
    ++ [102, 109, 116, 32]
    ++ setValue32 16
    ++ setValue16 1
    ++ setValue16 numberOfChannels
    ++ setValue32 sampleRate
    ++ setValue32 (sampleRate * numberOfChannels * 2)
    ++ setValue16 (numberOfChannels * 2)
    ++ setValue16 16
    ++ [100, 97, 116, 97]
    ++ setValue32 (nsamples * 2)

/-- Little-endian decoding of a 16-bit field at a byte offset. -/
def readU16 (l : List ℕ) (off : ℕ) : ℕ :=
  l[off]! + 2 ^ 8 * l[off + 1]!

/-- Little-endian decoding of a 32-bit field at a byte offset. -/
def readU32 (l : List ℕ) (off : ℕ) : ℕ :=
  l[off]! + 2 ^ 8 * l[off + 1]! + 2 ^ 16 * l[off + 2]! + 2 ^ 24 * l[off + 3]!

/-- `WavAudioOutput::~WavAudioOutput`: from the final stream position the
total sample count `(currentPosition - 44) / bytesPerSample` is recomputed
and the header rewritten with it; the two `assert`s (byte count even,
sample count divisible by the channel count) are modelled as guards. -/
def wavCloseHeader (numberOfChannels sampleRate currentPosition : ℕ) :
    Option (List ℕ) :=
  if (currentPosition - 44) % 2 = 0
      ∧ ((currentPosition - 44) / 2) % numberOfChannels = 0 then
    some (write_header ((currentPosition - 44) / 2) numberOfChannels sampleRate)
  else none

/-! ## FmDecode.cpp: the FmDecoder processing chain

The DSP sub-blocks used by `FmDecoder::process` (IF AGC, multipath filter,
phase discriminator, deemphasis, audio resamplers, pilot-cut FIR filters
and DC blockers) are implemented in source files that are not part of the
given sources, so each is abstracted as a stateful oracle: an opaque state
type together with a function from state and input block to new state and
output block.  The control flow of `FmDecoder::process` itself is embedded
faithfully. -/

/-- A complex IQ sample (real and imaginary part). -/
abbrev IQSample := ℚ × ℚ

/-- The stateful oracles for the sub-blocks of `FmDecoder`.  The type
parameters are the (opaque) internal state types of the IF AGC, the
multipath filter, the phase discriminator, the deemphasis filters, the
audio resamplers, the pilot-cut FIR filters and the DC blockers. -/
structure FmOracles (A M P D R F C : Type) where
  rms_level_approx : List IQSample → ℚ
  agc_process : A → List IQSample → A × List IQSample
  mf_process : M → List IQSample → M × List IQSample
  mf_error_abnormal : M → Bool
  mf_reference_small : M → Bool
  initialize_coefficients : M → M
  disc_process : P → List IQSample → P × List ℚ
  samples_mean_rms : List ℚ → ℚ × ℚ
  deemph_process : D → List ℚ → D × List ℚ
  resamp_process : R → List ℚ → R × List ℚ
  fir_process : F → List ℚ → F × List ℚ
  dcblock_process : C → List ℚ → C × List ℚ
  pll_osc : PllOsc
  mpi : ℚ

/-- The state of `FmDecoder`: configuration flags, level metrics, the pilot
PLL, the oracle states of the DSP sub-blocks, and the member scratch
buffers. -/
structure FmDecoder (A M P D R F C : Type) where
  pilot_shift : Bool
  enable_multipath_filter : Bool
  skip_multipath_filter : Bool
  wait_multipath_blocks : ℕ
  stereo_enabled : Bool
  stereo_detected : Bool
  baseband_mean : ℚ
  baseband_level : ℚ
  if_rms : ℚ
  ifagc : A
  multipathfilter : M
  phasedisc : P
  pilotpll : PilotPhaseLock
  deemph_mono : D
  deemph_stereo : D
  audioresampler_mono : R
  audioresampler_stereo : R
  pilotcut_mono : F
  pilotcut_stereo : F
  dcblock_mono : C
  dcblock_stereo : C
  samples_in_after_agc : List IQSample
  samples_in_filtered : List IQSample
  buf_decoded : List ℚ
  buf_baseband : List ℚ
  buf_rawstereo : List ℚ
  buf_mono_firstout : List ℚ
  buf_stereo_firstout : List ℚ
  buf_mono : List ℚ
  buf_stereo : List ℚ

/-- Modelled from the spec: the pilot frequency (19 kHz) and PLL bandwidth
(50 Hz) constants used by the `FmDecoder` constructor come from
`FmDecode.h`, which is not among the given sources; the spec gives 19 kHz
and 50 Hz. -/
def pilot_freq : ℚ := 19000

/-- The `FmDecoder` constructor: initial flags, levels and the pilot PLL
(constructed with normalized frequency `pilot_freq / sample_rate_demod`,
bandwidth `50 / sample_rate_demod` and `minsignal = 0.01`); the oracle
states of the sub-blocks are taken as arguments. -/
def FmDecoder.init {A M P D R F C : Type} (o : FmOracles A M P D R F C)
    (sample_rate_demod : ℚ) (stereo : Bool) (pilot_shift : Bool)
    (multipath_stages : ℕ) (a : A) (m : M) (p : P) (d dst : D) (r rst : R)
    (f fst : F) (c cst : C) : FmDecoder A M P D R F C :=
  { pilot_shift := pilot_shift
    enable_multipath_filter := decide (0 < multipath_stages)
    skip_multipath_filter := false
    wait_multipath_blocks := 100
    stereo_enabled := stereo
    stereo_detected := false
    baseband_mean := 0
    baseband_level := 0
    if_rms := 0
    ifagc := a
    multipathfilter := m
    phasedisc := p
    pilotpll := PilotPhaseLock.init o.pll_osc o.mpi
      (pilot_freq / sample_rate_demod) (50 / sample_rate_demod) 0.01
    deemph_mono := d
    deemph_stereo := dst
    audioresampler_mono := r
    audioresampler_stereo := rst
    pilotcut_mono := f
    pilotcut_stereo := fst
    dcblock_mono := c
    dcblock_stereo := cst
    samples_in_after_agc := []
    samples_in_filtered := []
    buf_decoded := []
    buf_baseband := []
    buf_rawstereo := []
    buf_mono_firstout := []
    buf_stereo_firstout := []
    buf_mono := []
    buf_stereo := [] }

/-- The IF-filtering stage of `FmDecoder::process`: the first 100 blocks
bypass the multipath filter; afterwards the filter runs (unless disabled)
and its coefficients are reset, with fallback to the unfiltered input, when
the error is non-finite or the reference level is near zero. -/
def fmStageFilter {A M P D R F C : Type} (o : FmOracles A M P D R F C)
    (s : FmDecoder A M P D R F C) : FmDecoder A M P D R F C :=
  if 0 < s.wait_multipath_blocks then
    { s with wait_multipath_blocks := s.wait_multipath_blocks - 1
             samples_in_filtered := s.samples_in_after_agc
             samples_in_after_agc := [] }
  else if s.enable_multipath_filter && !s.skip_multipath_filter then
    let mfr := o.mf_process s.multipathfilter s.samples_in_after_agc
    let s2 : FmDecoder A M P D R F C :=
      { s with multipathfilter := mfr.1, samples_in_filtered := mfr.2 }
    if !s2.skip_multipath_filter
        && (o.mf_error_abnormal s2.multipathfilter
            || o.mf_reference_small s2.multipathfilter) then
      { s2 with multipathfilter := o.initialize_coefficients s2.multipathfilter
                samples_in_filtered := s2.samples_in_after_agc
                samples_in_after_agc := [] }
    else s2
  else
    { s with samples_in_filtered := s.samples_in_after_agc
             samples_in_after_agc := [] }

/-- The stereo branch of `FmDecoder::process` (executed only when stereo
is enabled): pilot PLL, force-set of the stereo-detected flag, stereo
demodulation, optional deemphasis, and the stereo audio resampler. -/
def fmStageStereo {A M P D R F C : Type} (o : FmOracles A M P D R F C)
    (s : FmDecoder A M P D R F C) : FmDecoder A M P D R F C :=
  let pr := PilotPhaseLock.process o.pll_osc o.mpi s.pilot_shift
    s.buf_baseband s.pilotpll
  let s2 : FmDecoder A M P D R F C :=
    { s with pilotpll := pr.1, buf_rawstereo := pr.2, stereo_detected := true }
  let s3 : FmDecoder A M P D R F C :=
    { s2 with buf_rawstereo := demod_stereo s2.buf_baseband s2.buf_rawstereo }
  let s4 : FmDecoder A M P D R F C :=
    if !s3.pilot_shift then
      let dr := o.deemph_process s3.deemph_stereo s3.buf_rawstereo
      { s3 with deemph_stereo := dr.1, buf_rawstereo := dr.2 }
    else s3
  let rr := o.resamp_process s4.audioresampler_stereo s4.buf_rawstereo
  { s4 with audioresampler_stereo := rr.1, buf_stereo_firstout := rr.2 }

/-- The final output stage of `FmDecoder::process`: pilot-cut FIR and DC
blocking of the mono (and, with stereo enabled, the stereo) channel, then
the output policy on the stereo-detected and pilot-shift flags.  In the
mono-only branch `audio = std::move(m_buf_mono)` leaves the member empty. -/
def fmStageOutput {A M P D R F C : Type} (o : FmOracles A M P D R F C)
    (s : FmDecoder A M P D R F C) : FmDecoder A M P D R F C × List ℚ :=
  let fm := o.fir_process s.pilotcut_mono s.buf_mono_firstout
  let s1 : FmDecoder A M P D R F C :=
    { s with pilotcut_mono := fm.1, buf_mono := fm.2 }
  let dcm := o.dcblock_process s1.dcblock_mono s1.buf_mono
  let s2 : FmDecoder A M P D R F C :=
    { s1 with dcblock_mono := dcm.1, buf_mono := dcm.2 }
  if s2.stereo_enabled then
    let fs := o.fir_process s2.pilotcut_stereo s2.buf_stereo_firstout
    let s3 : FmDecoder A M P D R F C :=
      { s2 with pilotcut_stereo := fs.1, buf_stereo := fs.2 }
    let dcs := o.dcblock_process s3.dcblock_stereo s3.buf_stereo
    let s4 : FmDecoder A M P D R F C :=
      { s3 with dcblock_stereo := dcs.1, buf_stereo := dcs.2 }
    if s4.stereo_detected then
      if s4.pilot_shift then (s4, mono_to_left_right s4.buf_stereo)
      else (s4, stereo_to_left_right s4.buf_mono s4.buf_stereo)
    else
      if s4.pilot_shift then (s4, zero_to_left_right s4.buf_stereo)
      else (s4, mono_to_left_right s4.buf_mono)
  else ({ s2 with buf_mono := [] }, s2.buf_mono)

/-- The body of `FmDecoder::process` after IF AGC: the (possibly bypassed)
multipath filter, the phase discriminator (returning early when it yields
no output), the baseband level update, the pilot PLL and stereo
demodulation, mono deemphasis and resampling (returning early when no mono
output appears), and the final filtering and matrixing stage. -/
def fmProcessRest {A M P D R F C : Type} (o : FmOracles A M P D R F C)
    (s1 : FmDecoder A M P D R F C) : FmDecoder A M P D R F C × List ℚ :=
  let s2 : FmDecoder A M P D R F C := fmStageFilter o s1
  let discr := o.disc_process s2.phasedisc s2.samples_in_filtered
  let s3 : FmDecoder A M P D R F C :=
    { s2 with phasedisc := discr.1, buf_decoded := discr.2 }
  if s3.buf_decoded.length = 0 then (s3, [])
  else
    let mr := o.samples_mean_rms s3.buf_decoded
    let s4 : FmDecoder A M P D R F C :=
      { s3 with buf_baseband := s3.buf_decoded
                baseband_mean := 0.95 * s3.baseband_mean + 0.05 * mr.1
                baseband_level := 0.95 * s3.baseband_level + 0.05 * mr.2 }
    let s5 : FmDecoder A M P D R F C :=
      if s4.stereo_enabled then fmStageStereo o s4 else s4
    let dm := o.deemph_process s5.deemph_mono s5.buf_baseband
    let s6 : FmDecoder A M P D R F C :=
      { s5 with deemph_mono := dm.1, buf_baseband := dm.2 }
    let rm := o.resamp_process s6.audioresampler_mono s6.buf_baseband
    let s7 : FmDecoder A M P D R F C :=
      { s6 with audioresampler_mono := rm.1, buf_mono_firstout := rm.2 }
    if s7.buf_mono_firstout.length = 0 then (s7, [])
    else fmStageOutput o s7

/-- `FmDecoder::process`, entry point: an empty input block only resizes
the audio to length zero and returns without touching any member; a
nonempty block has its IF RMS measured, runs through the IF AGC, and
continues with `fmProcessRest`. -/
def FmDecoder.process {A M P D R F C : Type} (o : FmOracles A M P D R F C)
    (s : FmDecoder A M P D R F C) (samples_in : List IQSample) :
    FmDecoder A M P D R F C × List ℚ :=
  if samples_in.length = 0 then (s, [])
  else
    fmProcessRest o
      { s with if_rms := o.rms_level_approx samples_in
               ifagc := (o.agc_process s.ifagc samples_in).1
               samples_in_after_agc := (o.agc_process s.ifagc samples_in).2 }

/-! ## Concrete oracle instances used by witnesses -/

/-- A trivial transcendental oracle: every function returns zero. -/
def oscZero : PllOsc :=
  { osin := fun _ => 0
    ocos := fun _ => 0
    oexp := fun _ => 0
    oatan2 := fun _ _ => 0 }

/-- A trivial oracle assignment with unit sub-block states: the AGC and
filters pass their input through, the phase discriminator outputs a zero
sample per input sample, and `M_PI` is instantiated by 0 (the PLL theorems
hold for every value). -/
def trivOracles : FmOracles Unit Unit Unit Unit Unit Unit Unit :=
  { rms_level_approx := fun _ => 0
    agc_process := fun u l => (u, l)
    mf_process := fun u l => (u, l)
    mf_error_abnormal := fun _ => false
    mf_reference_small := fun _ => false
    initialize_coefficients := fun u => u
    disc_process := fun u l => (u, l.map (fun _ => 0))
    samples_mean_rms := fun _ => (0, 0)
    deemph_process := fun u l => (u, l)
    resamp_process := fun u l => (u, l)
    fir_process := fun u l => (u, l)
    dcblock_process := fun u l => (u, l)
    pll_osc := oscZero
    mpi := 0 }

/-- A concrete decoder state: stereo enabled, no pilot shift, no multipath
stages, demodulator rate 384 kHz. -/
def fmInitTriv : FmDecoder Unit Unit Unit Unit Unit Unit Unit :=
  FmDecoder.init trivOracles 384000 true false 0
    () () () () () () () () () () ()

/-! ## Theorems about the S16LE encoder (claim C6) -/

/-- Decoding the two emitted bytes as a little-endian two-complement 16-bit
value recovers the rounded integer, for any integer in the 16-bit range. -/
theorem s16_bytes_decode (v : ℤ) (u : ℕ) (hu : (u : ℤ) = v % 2 ^ 64)
    (h1 : -32768 ≤ v) (h2 : v ≤ 32767) :
    decodeS16 (u % 256) (u / 2 ^ 8 % 256) = (v : ℚ) / 32767 := by
  simp only [decodeS16]
  have hiv : (if (u % 256 + 256 * (u / 2 ^ 8 % 256)) < 32768
      then ((u % 256 + 256 * (u / 2 ^ 8 % 256) : ℕ) : ℤ)
      else ((u % 256 + 256 * (u / 2 ^ 8 % 256) : ℕ) : ℤ) - 65536) = v := by
    split_ifs with hc <;> omega
  rw [hiv]

/-- C6: for every sample in `[-1, 1]`, encoding with
`AudioOutput::samplesToInt16` and decoding the 16-bit value back to
`v / 32767` stays within `1/32767` of the sample, and the byte output has
exactly two bytes per input sample. -/
theorem s16_roundtrip :
    (∀ s : ℚ, -1 ≤ s → s ≤ 1 →
      |decodeS16 (sampleBytes s)[0]! (sampleBytes s)[1]! - s| ≤ 1 / 32767) ∧
    ∀ samples : List ℚ, (samplesToInt16 samples).length = 2 * samples.length := by
  constructor
  · intro s h1 h2
    have hcl : clampSample s = s := by
      unfold clampSample
      rw [min_eq_right h2, max_eq_right h1]
    set v : ℤ := round (s * 32767) with hv
    have hround : |(v : ℚ) - s * 32767| ≤ 1 / 2 := by
      rw [abs_sub_comm]
      exact abs_sub_round (s * 32767)
    obtain ⟨hl, hr⟩ := abs_le.mp hround
    have hs1 : s * 32767 ≤ 32767 := by nlinarith
    have hs2 : -32767 ≤ s * 32767 := by nlinarith
    have hq1 : (v : ℚ) < 32768 := by linarith
    have hq2 : -32768 < (v : ℚ) := by linarith
    have hb2 : v ≤ 32767 := by
      have : v < 32768 := by exact_mod_cast hq1
      omega
    have hb1 : -32768 ≤ v := by
      have : -32768 < v := by exact_mod_cast hq2
      omega
    have hu : ((sampleToWord s : ℕ) : ℤ) = v % 2 ^ 64 := by
      unfold sampleToWord
      rw [hcl, ← hv]
      exact Int.toNat_of_nonneg (Int.emod_nonneg _ (by norm_num))
    have hb0 : (sampleBytes s)[0]! = sampleToWord s % 256 := rfl
    have hb1' : (sampleBytes s)[1]! = sampleToWord s / 2 ^ 8 % 256 := rfl
    rw [hb0, hb1', s16_bytes_decode v (sampleToWord s) hu hb1 hb2]
    have hrw : (v : ℚ) / 32767 - s = ((v : ℚ) - s * 32767) / 32767 := by ring
    rw [hrw, abs_div]
    have h32 : |(32767 : ℚ)| = 32767 := by norm_num
    rw [h32]
    exact (div_le_div_iff_of_pos_right (by norm_num)).mpr (le_trans hround (by norm_num))
  · intro samples
    induction samples with
    | nil => rfl
    | cons a l ih =>
      have hc : samplesToInt16 (a :: l) = sampleBytes a ++ samplesToInt16 l := rfl
      rw [hc, List.length_append, ih]
      simp [sampleBytes]
      omega

/-- Witness for C6 at the concrete sample `1/3` and a two-sample list. -/
theorem s16_roundtrip_witness :
    ((-1 : ℚ) ≤ 1 / 3 ∧ (1 / 3 : ℚ) ≤ 1 ∧
      |decodeS16 (sampleBytes (1 / 3))[0]! (sampleBytes (1 / 3))[1]! - 1 / 3|
        ≤ 1 / 32767) ∧
    (samplesToInt16 [1 / 3, -(1 / 2)]).length = 2 * 2 :=
  ⟨⟨by norm_num, by norm_num, s16_roundtrip.1 (1 / 3) (by norm_num) (by norm_num)⟩,
    s16_roundtrip.2 [1 / 3, -(1 / 2)]⟩

/-! ## Theorems about stereo matrixing (claim C5) -/

/-- C5: with stereo detected and pilot-shift off, for equal-length mono and
stereo vectors the audio of `FmDecoder::stereo_to_left_right` has length
`2 n` and interleaves `(M[i] + 1.017 * S[i], M[i] - 1.017 * S[i])`. -/
theorem stereo_to_left_right_spec (M S : List ℚ) (h : M.length = S.length) :
    (stereo_to_left_right M S).length = 2 * M.length ∧
    ∀ (i : ℕ) (hi : i < M.length) (hs : i < S.length),
      (stereo_to_left_right M S)[2 * i]?
        = some (M.get ⟨i, hi⟩ + 1.017 * S.get ⟨i, hs⟩) ∧
      (stereo_to_left_right M S)[2 * i + 1]?
        = some (M.get ⟨i, hi⟩ - 1.017 * S.get ⟨i, hs⟩) := by
  induction M generalizing S with
  | nil =>
    refine ⟨by cases S <;> rfl, ?_⟩
    intro i hi hs
    exact absurd hi (by simp)
  | cons m M ih =>
    cases S with
    | nil => simp at h
    | cons s0 S =>
      have h' : M.length = S.length := by simpa using h
      have key : stereo_to_left_right (m :: M) (s0 :: S)
          = (m + 1.017 * s0) :: (m - 1.017 * s0) :: stereo_to_left_right M S := rfl
      constructor
      · rw [key]
        simp only [List.length_cons, (ih S h').1]
        omega
      · intro i hi hs
        match i with
        | 0 =>
          constructor <;> simp [key]
        | Nat.succ j =>
          have hj : j < M.length := by simpa using hi
          have hjs : j < S.length := by simpa using hs
          obtain ⟨ih1, ih2⟩ := (ih S h').2 j hj hjs
          have e1 : 2 * (j + 1) = 2 * j + 1 + 1 := by ring
          have e2 : 2 * (j + 1) + 1 = 2 * j + 1 + 1 + 1 := by ring
          constructor
          · rw [key, e1, List.getElem?_cons_succ, List.getElem?_cons_succ]
            exact ih1
          · rw [key, e2, List.getElem?_cons_succ, List.getElem?_cons_succ]
            exact ih2

/-- Witness for C5 at concrete two-sample inputs. -/
theorem stereo_to_left_right_witness :
    (stereo_to_left_right [1, 2] [3, 4]).length = 2 * 2 ∧
    (stereo_to_left_right [1, 2] [3, 4])[0]? = some ((1 : ℚ) + 1.017 * 3) :=
  ⟨(stereo_to_left_right_spec [1, 2] [3, 4] rfl).1, by
    have h := ((stereo_to_left_right_spec [1, 2] [3, 4] rfl).2 0
      (by norm_num) (by norm_num)).1
    simpa using h⟩

/-! ## Theorems about the output buffer minimum fill (claim C8) -/

/-- Counterexample to C8 as stated: with `bufsecs = 1/160` (so
`floor(b * r) = 300` at `pcmrate = 48000`) and stereo output, `main` passes
`max(480, 300) * 2 = 960` to the output thread, not
`max(480, 300 * 2) = 600` as the claimed formula would give. -/
theorem buf_minfill_counterexample :
    ¬ buf_minfill (1 / 160) 48000 true
        = specBufMinfill (1 / 160) 48000 (nchannel true) := by
  have h : ⌊(1 / 160 : ℚ) * ((48000 : ℕ) : ℚ)⌋ = 300 := by norm_num
  simp only [buf_minfill, outputbuf_samples, specBufMinfill, nchannel, h]
  norm_num
  decide

/-- C8 (amended): the consumer-side minimum fill equals
`max(480, floor(bufsecs * pcmrate)) * channels` — the 480-sample floor is
applied to the per-interleaved-frame count before multiplying by the channel
count; it agrees with the claimed `max(480, floor(b * r) * c)` whenever
`floor(b * r) >= 480` (and always in mono). -/
theorem buf_minfill_amended (bufsecs : ℚ) (pcmrate : ℕ) (stereo : Bool)
    (hb : 0 < bufsecs) :
    buf_minfill bufsecs pcmrate stereo
      = max 480 (⌊bufsecs * (pcmrate : ℚ)⌋).toNat * nchannel stereo ∧
    (480 ≤ (⌊bufsecs * (pcmrate : ℚ)⌋).toNat →
      buf_minfill bufsecs pcmrate stereo
        = specBufMinfill bufsecs pcmrate (nchannel stereo)) := by
  simp only [buf_minfill, outputbuf_samples, specBufMinfill, if_pos hb]
  constructor
  · congr 1
    split_ifs with h <;> omega
  · intro h480
    have h1 : (if (⌊bufsecs * (pcmrate : ℚ)⌋).toNat < 480 then 480
        else (⌊bufsecs * (pcmrate : ℚ)⌋).toNat)
        = (⌊bufsecs * (pcmrate : ℚ)⌋).toNat := by
      split_ifs with h <;> omega
    rw [h1]
    cases stereo <;> simp [nchannel] <;> omega

/-- Witness for the amended C8 at `bufsecs = 1`, `pcmrate = 48000`, stereo. -/
theorem buf_minfill_amended_witness :
    (0 : ℚ) < 1 ∧
    buf_minfill 1 48000 true
      = max 480 (⌊(1 : ℚ) * (48000 : ℚ)⌋).toNat * nchannel true :=
  ⟨by norm_num, (buf_minfill_amended 1 48000 true (by norm_num)).1⟩

/-! ## Theorems about the overflow warning (claim C9) -/

/-- C9: in every run of the main loop the "input buffer growing" warning is
printed at most once (never again once the one-shot flag is set), and
whether the warning fires has no effect on how many blocks get decoded. -/
theorem overflow_warning_one_shot (ifrate : ℚ) :
    (∀ obs : List LoopObs, (mainLoop ifrate true obs).1 = 0) ∧
    (∀ obs : List LoopObs, (mainLoop ifrate false obs).1 ≤ 1) ∧
    (∀ (obs : List LoopObs) (w1 w2 : Bool),
      (mainLoop ifrate w1 obs).2 = (mainLoop ifrate w2 obs).2) := by
  have htrue : ∀ obs, (mainLoop ifrate true obs).1 = 0 := by
    intro obs
    induction obs with
    | nil => rfl
    | cons ob rest ih =>
      rcases ob with ⟨st, q, e⟩
      cases st
      · cases e
        · simp [mainLoop, ih]
        · simp [mainLoop]
      · simp [mainLoop]
  refine ⟨htrue, ?_, ?_⟩
  · intro obs
    induction obs with
    | nil => simp [mainLoop]
    | cons ob rest ih =>
      rcases ob with ⟨st, q, e⟩
      cases st
      · cases e
        · by_cases hc : (10 : ℚ) * ifrate < (q : ℚ)
          · simp [mainLoop, hc, htrue rest]
          · simpa [mainLoop, hc] using ih
        · simp [mainLoop]
          split <;> simp
      · simp [mainLoop]
  · intro obs
    induction obs with
    | nil => intro w1 w2; rfl
    | cons ob rest ih =>
      intro w1 w2
      rcases ob with ⟨st, q, e⟩
      cases st
      · cases e
        · simp only [mainLoop]
          exact congrArg (· + 1) (ih _ _)
        · simp [mainLoop]
      · simp [mainLoop]

/-! ## Theorems about the pilot PLL frequency clamp (claim C1) -/

/-- A PLL sample step never changes the clamp bounds, the signal threshold,
the lock parameters or the sample counter. -/
theorem pllStep_fields (osc : PllOsc) (mpi : ℚ) (ps wl : Bool) (n i : ℕ)
    (x : ℚ) (s : PilotPhaseLock) :
    ((pllStep osc mpi ps wl n i x s).1).minfreq = s.minfreq ∧
    ((pllStep osc mpi ps wl n i x s).1).maxfreq = s.maxfreq ∧
    ((pllStep osc mpi ps wl n i x s).1).minsignal = s.minsignal ∧
    ((pllStep osc mpi ps wl n i x s).1).lock_delay = s.lock_delay ∧
    ((pllStep osc mpi ps wl n i x s).1).lock_cnt = s.lock_cnt ∧
    ((pllStep osc mpi ps wl n i x s).1).sample_cnt = s.sample_cnt := by
  simp only [pllStep]
  split_ifs <;> exact ⟨rfl, rfl, rfl, rfl, rfl, rfl⟩

/-- The per-sample loop never changes the clamp bounds, the signal
threshold, the lock parameters or the sample counter. -/
theorem pllLoop_fields (osc : PllOsc) (mpi : ℚ) (ps wl : Bool) (n : ℕ) :
    ∀ (xs : List ℚ) (i : ℕ) (s : PilotPhaseLock),
      ((pllLoop osc mpi ps wl n i s xs).1).minfreq = s.minfreq ∧
      ((pllLoop osc mpi ps wl n i s xs).1).maxfreq = s.maxfreq ∧
      ((pllLoop osc mpi ps wl n i s xs).1).minsignal = s.minsignal ∧
      ((pllLoop osc mpi ps wl n i s xs).1).lock_delay = s.lock_delay ∧
      ((pllLoop osc mpi ps wl n i s xs).1).lock_cnt = s.lock_cnt ∧
      ((pllLoop osc mpi ps wl n i s xs).1).sample_cnt = s.sample_cnt := by
  intro xs
  induction xs with
  | nil => intro i s; exact ⟨rfl, rfl, rfl, rfl, rfl, rfl⟩
  | cons x xs ih =>
    intro i s
    obtain ⟨h1, h2, h3, h4, h5, h6⟩ := pllStep_fields osc mpi ps wl n i x s
    obtain ⟨g1, g2, g3, g4, g5, g6⟩ := ih (i + 1) (pllStep osc mpi ps wl n i x s).1
    simp only [pllLoop]
    exact ⟨g1.trans h1, g2.trans h2, g3.trans h3, g4.trans h4, g5.trans h5,
      g6.trans h6⟩

/-- After a PLL sample step the frequency lies between the clamp bounds
(`m_freq = std::max(m_minfreq, std::min(m_maxfreq, m_freq))`). -/
theorem pllStep_freq_bounds (osc : PllOsc) (mpi : ℚ) (ps wl : Bool)
    (n i : ℕ) (x : ℚ) (s : PilotPhaseLock) (h : s.minfreq ≤ s.maxfreq) :
    s.minfreq ≤ ((pllStep osc mpi ps wl n i x s).1).freq ∧
    ((pllStep osc mpi ps wl n i x s).1).freq ≤ s.maxfreq := by
  simp only [pllStep]
  split_ifs <;> exact ⟨le_max_left _ _, max_le h (min_le_left _ _)⟩

/-- The per-sample loop keeps the frequency between the clamp bounds. -/
theorem pllLoop_freq_bounds (osc : PllOsc) (mpi : ℚ) (ps wl : Bool) (n : ℕ) :
    ∀ (xs : List ℚ) (i : ℕ) (s : PilotPhaseLock), s.minfreq ≤ s.maxfreq →
      s.minfreq ≤ s.freq → s.freq ≤ s.maxfreq →
      s.minfreq ≤ ((pllLoop osc mpi ps wl n i s xs).1).freq ∧
      ((pllLoop osc mpi ps wl n i s xs).1).freq ≤ s.maxfreq := by
  intro xs
  induction xs with
  | nil => intro i s _ h1 h2; exact ⟨h1, h2⟩
  | cons x xs ih =>
    intro i s hle h1 h2
    obtain ⟨f1, f2, _, _, _, _⟩ := pllStep_fields osc mpi ps wl n i x s
    obtain ⟨b1, b2⟩ := pllStep_freq_bounds osc mpi ps wl n i x s hle
    have hle2 : ((pllStep osc mpi ps wl n i x s).1).minfreq
        ≤ ((pllStep osc mpi ps wl n i x s).1).maxfreq := by rw [f1, f2]; exact hle
    obtain ⟨c1, c2⟩ := ih (i + 1) (pllStep osc mpi ps wl n i x s).1 hle2
      (by rw [f1]; exact b1) (by rw [f2]; exact b2)
    simp only [pllLoop]
    rw [f1] at c1
    rw [f2] at c2
    exact ⟨c1, c2⟩

/-- `PilotPhaseLock::process` never changes the clamp bounds, the signal
threshold or the lock delay. -/
theorem pllProcess_fields (osc : PllOsc) (mpi : ℚ) (ps : Bool)
    (xs : List ℚ) (s : PilotPhaseLock) :
    ((PilotPhaseLock.process osc mpi ps xs s).1).minfreq = s.minfreq ∧
    ((PilotPhaseLock.process osc mpi ps xs s).1).maxfreq = s.maxfreq ∧
    ((PilotPhaseLock.process osc mpi ps xs s).1).minsignal = s.minsignal ∧
    ((PilotPhaseLock.process osc mpi ps xs s).1).lock_delay = s.lock_delay := by
  by_cases hn : xs.length = 0
  · simp only [PilotPhaseLock.process, if_pos hn]
    refine ⟨?_, ?_, ?_, ?_⟩ <;> trivial
  · obtain ⟨g1, g2, g3, g4, _, _⟩ := pllLoop_fields osc mpi ps
      (decide (s.lock_delay ≤ s.lock_cnt)) xs.length xs 0
      { s with pps_events := [], pilot_level := 1000 }
    simp only [PilotPhaseLock.process, if_neg hn]
    refine ⟨?_, ?_, ?_, ?_⟩ <;> split
    · exact g1
    · exact g1
    · exact g2
    · exact g2
    · exact g3
    · exact g3
    · exact g4
    · exact g4

/-- `PilotPhaseLock::process` keeps the frequency between the clamp
bounds. -/
theorem pllProcess_freq_bounds (osc : PllOsc) (mpi : ℚ) (ps : Bool)
    (xs : List ℚ) (s : PilotPhaseLock) (hle : s.minfreq ≤ s.maxfreq)
    (h1 : s.minfreq ≤ s.freq) (h2 : s.freq ≤ s.maxfreq) :
    s.minfreq ≤ ((PilotPhaseLock.process osc mpi ps xs s).1).freq ∧
    ((PilotPhaseLock.process osc mpi ps xs s).1).freq ≤ s.maxfreq := by
  by_cases hn : xs.length = 0
  · simp only [PilotPhaseLock.process, if_pos hn]
    exact ⟨h1, h2⟩
  · obtain ⟨b1, b2⟩ := pllLoop_freq_bounds osc mpi ps
      (decide (s.lock_delay ≤ s.lock_cnt)) xs.length xs 0
      { s with pps_events := [], pilot_level := 1000 } hle h1 h2
    simp only [PilotPhaseLock.process, if_neg hn]
    constructor <;> split
    · exact b1
    · exact b1
    · exact b2
    · exact b2

/-- C1: after every sample update of `PilotPhaseLock::process` the PLL
frequency satisfies `|freq - 2 pi f_pilot| <= 2 pi bandwidth`: the step
theorem applies to every sample update of every block (the clamp-bound
fields are never modified), and the invariant holds after any sequence of
blocks processed from the constructed state. -/
theorem pll_freq_clamp (f bw mpi ms : ℚ) (hbw : 0 ≤ bw) (hpi : 0 ≤ mpi) :
    (∀ (osc : PllOsc) (ps wl : Bool) (n i : ℕ) (x : ℚ) (s : PilotPhaseLock),
      s.minfreq = (f - bw) * 2 * mpi → s.maxfreq = (f + bw) * 2 * mpi →
      |((pllStep osc mpi ps wl n i x s).1).freq - 2 * mpi * f| ≤ 2 * mpi * bw) ∧
    (∀ (osc : PllOsc) (ps : Bool) (blocks : List (List ℚ)),
      |(processBlocks osc mpi ps (PilotPhaseLock.init osc mpi f bw ms)
          blocks).freq - 2 * mpi * f| ≤ 2 * mpi * bw) := by
  have e1 : (f - bw) * 2 * mpi = 2 * mpi * f - 2 * mpi * bw := by ring
  have e2 : (f + bw) * 2 * mpi = 2 * mpi * f + 2 * mpi * bw := by ring
  have hbb : 0 ≤ 2 * mpi * bw := by positivity
  constructor
  · intro osc ps wl n i x s hmin hmax
    have hle : s.minfreq ≤ s.maxfreq := by rw [hmin, hmax, e1, e2]; linarith
    obtain ⟨hl, hr⟩ := pllStep_freq_bounds osc mpi ps wl n i x s hle
    rw [hmin, e1] at hl
    rw [hmax, e2] at hr
    rw [abs_le]
    exact ⟨by linarith, by linarith⟩
  · intro osc ps blocks
    have main : ∀ (bs : List (List ℚ)) (s : PilotPhaseLock),
        s.minfreq = (f - bw) * 2 * mpi → s.maxfreq = (f + bw) * 2 * mpi →
        s.minfreq ≤ s.freq → s.freq ≤ s.maxfreq →
        (processBlocks osc mpi ps s bs).minfreq = (f - bw) * 2 * mpi ∧
        (processBlocks osc mpi ps s bs).maxfreq = (f + bw) * 2 * mpi ∧
        (processBlocks osc mpi ps s bs).minfreq
          ≤ (processBlocks osc mpi ps s bs).freq ∧
        (processBlocks osc mpi ps s bs).freq
          ≤ (processBlocks osc mpi ps s bs).maxfreq := by
      intro bs
      induction bs with
      | nil => intro s hmin hmax h1 h2; exact ⟨hmin, hmax, h1, h2⟩
      | cons b bs ih =>
        intro s hmin hmax h1 h2
        have hle : s.minfreq ≤ s.maxfreq := by rw [hmin, hmax, e1, e2]; linarith
        obtain ⟨p1, p2, _, _⟩ := pllProcess_fields osc mpi ps b s
        obtain ⟨q1, q2⟩ := pllProcess_freq_bounds osc mpi ps b s hle h1 h2
        exact ih (PilotPhaseLock.process osc mpi ps b s).1
          (p1.trans hmin) (p2.trans hmax)
          (by rw [p1]; exact q1) (by rw [p2]; exact q2)
    have hinit1 : (PilotPhaseLock.init osc mpi f bw ms).minfreq
        = (f - bw) * 2 * mpi := rfl
    have hinit2 : (PilotPhaseLock.init osc mpi f bw ms).maxfreq
        = (f + bw) * 2 * mpi := rfl
    have hinitf : (PilotPhaseLock.init osc mpi f bw ms).freq = f * 2 * mpi := rfl
    obtain ⟨m1, m2, m3, m4⟩ := main blocks (PilotPhaseLock.init osc mpi f bw ms)
      hinit1 hinit2
      (by rw [hinit1, hinitf]; nlinarith)
      (by rw [hinit2, hinitf]; nlinarith)
    rw [m1, e1] at m3
    rw [m2, e2] at m4
    rw [abs_le]
    exact ⟨by linarith, by linarith⟩

/-- Witness for C1 at `f = 1`, `bw = 1`, `M_PI = 3`, with the zero oracle
and a one-block input. -/
theorem pll_freq_clamp_witness :
    (0 : ℚ) ≤ 1 ∧ (0 : ℚ) ≤ 3 ∧
    |(processBlocks oscZero 3 false (PilotPhaseLock.init oscZero 3 1 1 0)
        [[0]]).freq - 2 * 3 * 1| ≤ 2 * 3 * 1 :=
  ⟨by norm_num, by norm_num,
    (pll_freq_clamp 1 1 3 0 (by norm_num) (by norm_num)).2 oscZero false [[0]]⟩

/-! ## Theorems about the lock hysteresis (claim C2) -/

/-- For a nonempty block, `PilotPhaseLock::process` measures the pilot
level in the per-sample loop and feeds it, with the looped state, to the
end-of-block lock update. -/
theorem pllProcess_lock_pilot (osc : PllOsc) (mpi : ℚ) (ps : Bool)
    (xs : List ℚ) (s : PilotPhaseLock) (hn : ¬ xs.length = 0) :
    ((PilotPhaseLock.process osc mpi ps xs s).1).pilot_level
      = ((pllLoop osc mpi ps (decide (s.lock_delay ≤ s.lock_cnt)) xs.length 0
          { s with pps_events := [], pilot_level := 1000 } xs).1).pilot_level ∧
    ((PilotPhaseLock.process osc mpi ps xs s).1).lock_cnt
      = lockUpdate
          ((pllLoop osc mpi ps (decide (s.lock_delay ≤ s.lock_cnt)) xs.length 0
            { s with pps_events := [], pilot_level := 1000 } xs).1).minsignal
          ((pllLoop osc mpi ps (decide (s.lock_delay ≤ s.lock_cnt)) xs.length 0
            { s with pps_events := [], pilot_level := 1000 } xs).1).lock_delay
          ((pllLoop osc mpi ps (decide (s.lock_delay ≤ s.lock_cnt)) xs.length 0
            { s with pps_events := [], pilot_level := 1000 } xs).1).pilot_level
          ((pllLoop osc mpi ps (decide (s.lock_delay ≤ s.lock_cnt)) xs.length 0
            { s with pps_events := [], pilot_level := 1000 } xs).1).lock_cnt
          xs.length := by
  simp only [PilotPhaseLock.process, if_neg hn]
  constructor <;> split <;> rfl

/-- One call of `PilotPhaseLock::process` increases the lock counter by at
most the block size. -/
theorem pllProcess_lock_le (osc : PllOsc) (mpi : ℚ) (ps : Bool)
    (xs : List ℚ) (s : PilotPhaseLock) :
    ((PilotPhaseLock.process osc mpi ps xs s).1).lock_cnt
      ≤ s.lock_cnt + xs.length := by
  by_cases hn : xs.length = 0
  · simp only [PilotPhaseLock.process, if_pos hn]
    exact Nat.le_add_right _ _
  · obtain ⟨_, hlc⟩ := pllProcess_lock_pilot osc mpi ps xs s hn
    rw [hlc]
    obtain ⟨_, _, _, _, g5, _⟩ := pllLoop_fields osc mpi ps
      (decide (s.lock_delay ≤ s.lock_cnt)) xs.length xs 0
      { s with pps_events := [], pilot_level := 1000 }
    have g5s : ((pllLoop osc mpi ps (decide (s.lock_delay ≤ s.lock_cnt))
        xs.length 0 { s with pps_events := [], pilot_level := 1000 } xs).1).lock_cnt
        = s.lock_cnt := g5
    unfold lockUpdate
    split_ifs <;> omega

/-- The lock counter after a sequence of blocks is bounded by its start
value plus the total number of processed samples. -/
theorem processBlocks_lock_le (osc : PllOsc) (mpi : ℚ) (ps : Bool) :
    ∀ (blocks : List (List ℚ)) (s : PilotPhaseLock),
      (processBlocks osc mpi ps s blocks).lock_cnt
        ≤ s.lock_cnt + (blocks.map List.length).sum := by
  intro blocks
  induction blocks with
  | nil => intro s; simp [processBlocks]
  | cons b bs ih =>
    intro s
    have h1 := ih (PilotPhaseLock.process osc mpi ps b s).1
    have h2 := pllProcess_lock_le osc mpi ps b s
    simp only [processBlocks, List.map_cons, List.sum_cons]
    omega

/-- C2: starting from lock counter zero the PLL can report locked only
after processing at least `lock_delay` samples; while below `lock_delay`
and with the pilot-level condition met, a block adds its size to the
counter; and a block on which the condition fails resets the counter to
zero. -/
theorem pll_lock_hysteresis (osc : PllOsc) (mpi : ℚ) (ps : Bool) :
    (∀ (blocks : List (List ℚ)) (s : PilotPhaseLock), s.lock_cnt = 0 →
      s.lock_delay ≤ (processBlocks osc mpi ps s blocks).lock_cnt →
      s.lock_delay ≤ (blocks.map List.length).sum) ∧
    (∀ (xs : List ℚ) (s : PilotPhaseLock), xs ≠ [] →
      s.lock_cnt < s.lock_delay →
      s.minsignal
          < 2 * ((PilotPhaseLock.process osc mpi ps xs s).1).pilot_level →
      ((PilotPhaseLock.process osc mpi ps xs s).1).lock_cnt
        = s.lock_cnt + xs.length) ∧
    (∀ (xs : List ℚ) (s : PilotPhaseLock), xs ≠ [] →
      ¬ s.minsignal
          < 2 * ((PilotPhaseLock.process osc mpi ps xs s).1).pilot_level →
      ((PilotPhaseLock.process osc mpi ps xs s).1).lock_cnt = 0) := by
  refine ⟨?_, ?_, ?_⟩
  · intro blocks s h0 hlock
    have hle := processBlocks_lock_le osc mpi ps blocks s
    omega
  · intro xs s hne hcnt hsig
    have hn : ¬ xs.length = 0 := fun h => hne (List.length_eq_zero.mp h)
    obtain ⟨hpl, hlc⟩ := pllProcess_lock_pilot osc mpi ps xs s hn
    obtain ⟨_, _, g3, g4, g5, _⟩ := pllLoop_fields osc mpi ps
      (decide (s.lock_delay ≤ s.lock_cnt)) xs.length xs 0
      { s with pps_events := [], pilot_level := 1000 }
    have g3s : ((pllLoop osc mpi ps (decide (s.lock_delay ≤ s.lock_cnt))
        xs.length 0 { s with pps_events := [], pilot_level := 1000 } xs).1).minsignal
        = s.minsignal := g3
    have g4s : ((pllLoop osc mpi ps (decide (s.lock_delay ≤ s.lock_cnt))
        xs.length 0 { s with pps_events := [], pilot_level := 1000 } xs).1).lock_delay
        = s.lock_delay := g4
    have g5s : ((pllLoop osc mpi ps (decide (s.lock_delay ≤ s.lock_cnt))
        xs.length 0 { s with pps_events := [], pilot_level := 1000 } xs).1).lock_cnt
        = s.lock_cnt := g5
    rw [hpl] at hsig
    rw [hlc, g3s, g4s, g5s]
    unfold lockUpdate
    rw [if_pos hsig, if_pos hcnt]
  · intro xs s hne hsig
    have hn : ¬ xs.length = 0 := fun h => hne (List.length_eq_zero.mp h)
    obtain ⟨hpl, hlc⟩ := pllProcess_lock_pilot osc mpi ps xs s hn
    obtain ⟨_, _, g3, _, _, _⟩ := pllLoop_fields osc mpi ps
      (decide (s.lock_delay ≤ s.lock_cnt)) xs.length xs 0
      { s with pps_events := [], pilot_level := 1000 }
    have g3s : ((pllLoop osc mpi ps (decide (s.lock_delay ≤ s.lock_cnt))
        xs.length 0 { s with pps_events := [], pilot_level := 1000 } xs).1).minsignal
        = s.minsignal := g3
    rw [hpl] at hsig
    rw [hlc, g3s]
    unfold lockUpdate
    rw [if_neg hsig]

/-- Witness for C2: with bandwidth 30 the constructed `lock_delay` is 0,
so the lock bound of the first conjunct is dischargeable concretely. -/
theorem pll_lock_hysteresis_witness :
    (PilotPhaseLock.init oscZero 0 19 30 1).lock_cnt = 0 ∧
    (PilotPhaseLock.init oscZero 0 19 30 1).lock_delay
      ≤ (processBlocks oscZero 0 false (PilotPhaseLock.init oscZero 0 19 30 1)
          [[0]]).lock_cnt ∧
    (PilotPhaseLock.init oscZero 0 19 30 1).lock_delay
      ≤ ([[(0 : ℚ)]].map List.length).sum := by
  have hld : (PilotPhaseLock.init oscZero 0 19 30 1).lock_delay = 0 := by
    simp only [PilotPhaseLock.init]
    norm_num
  have h2 : (PilotPhaseLock.init oscZero 0 19 30 1).lock_delay
      ≤ (processBlocks oscZero 0 false (PilotPhaseLock.init oscZero 0 19 30 1)
          [[0]]).lock_cnt := by
    rw [hld]
    exact Nat.zero_le _
  exact ⟨rfl, h2,
    (pll_lock_hysteresis oscZero 0 false).1 [[0]]
      (PilotPhaseLock.init oscZero 0 19 30 1) rfl h2⟩

/-! ## Theorems about PPS events (claim C3) -/

/-- A PLL sample step either leaves the event list unchanged or, only when
the block started locked, appends one event whose block position is
`i / n` for the current loop index. -/
theorem pllStep_events (osc : PllOsc) (mpi : ℚ) (ps wl : Bool) (n i : ℕ)
    (x : ℚ) (s : PilotPhaseLock) :
    ((pllStep osc mpi ps wl n i x s).1).pps_events = s.pps_events ∨
    (wl = true ∧
      ((pllStep osc mpi ps wl n i x s).1).pps_events
        = s.pps_events ++
          [{ pps_index := s.pps_cnt, sample_index := s.sample_cnt + i,
             block_position := (i : ℚ) / (n : ℚ) }]) := by
  simp only [pllStep]
  split_ifs with h1 h2 h3
  · exact Or.inr ⟨h3, rfl⟩
  · exact Or.inl rfl
  · exact Or.inl rfl
  · exact Or.inl rfl

/-- When the block did not start locked, a sample step never appends an
event. -/
theorem pllStep_events_unlocked (osc : PllOsc) (mpi : ℚ) (ps : Bool)
    (n i : ℕ) (x : ℚ) (s : PilotPhaseLock) :
    ((pllStep osc mpi ps false n i x s).1).pps_events = s.pps_events := by
  obtain h | ⟨hw, _⟩ := pllStep_events osc mpi ps false n i x s
  · exact h
  · exact absurd hw (by simp)

/-- When the block did not start locked, the whole per-sample loop leaves
the event list unchanged. -/
theorem pllLoop_events_unlocked (osc : PllOsc) (mpi : ℚ) (ps : Bool) (n : ℕ) :
    ∀ (xs : List ℚ) (i : ℕ) (s : PilotPhaseLock),
      ((pllLoop osc mpi ps false n i s xs).1).pps_events = s.pps_events := by
  intro xs
  induction xs with
  | nil => intro i s; rfl
  | cons x xs ih =>
    intro i s
    simp only [pllLoop]
    exact (ih (i + 1) _).trans (pllStep_events_unlocked osc mpi ps n i x s)

/-- Every event present after the per-sample loop either was present
before the loop or has block position `j / n` for some index `j < n`,
provided the loop only visits indices below `n`. -/
theorem pllLoop_events_mem (osc : PllOsc) (mpi : ℚ) (ps wl : Bool) (n : ℕ) :
    ∀ (xs : List ℚ) (i : ℕ) (s : PilotPhaseLock), i + xs.length ≤ n →
      ∀ ev ∈ ((pllLoop osc mpi ps wl n i s xs).1).pps_events,
        ev ∈ s.pps_events ∨
          ∃ j, j < n ∧ ev.block_position = (j : ℚ) / (n : ℚ) := by
  intro xs
  induction xs with
  | nil => intro i s _ ev hev; exact Or.inl hev
  | cons x xs ih =>
    intro i s hin ev hev
    simp only [pllLoop] at hev
    have hrec := ih (i + 1) (pllStep osc mpi ps wl n i x s).1 (by
      simp only [List.length_cons] at hin
      omega) ev hev
    rcases hrec with hmem | hpos
    · obtain hkeep | ⟨_, happ⟩ := pllStep_events osc mpi ps wl n i x s
      · rw [hkeep] at hmem
        exact Or.inl hmem
      · rw [happ] at hmem
        rcases List.mem_append.mp hmem with hold | hnew
        · exact Or.inl hold
        · right
          refine ⟨i, ?_, ?_⟩
          · simp only [List.length_cons] at hin
            omega
          · rw [List.mem_singleton.mp hnew]
    · exact Or.inr hpos

/-- C3: every PPS event present after `PilotPhaseLock::process` has block
position `j / n` with `j < n` (hence in `[0, 1)`); a block that did not
start locked produces no events; and when the PLL is not locked at the end
of a (nonempty) block, the event list is cleared and the pilot-period and
PPS counters are zeroed. -/
theorem pll_pps_events (osc : PllOsc) (mpi : ℚ) (ps : Bool) :
    (∀ (xs : List ℚ) (s : PilotPhaseLock),
      ∀ ev ∈ ((PilotPhaseLock.process osc mpi ps xs s).1).pps_events,
        ∃ j, j < xs.length ∧ ev.block_position = (j : ℚ) / (xs.length : ℚ) ∧
          0 ≤ ev.block_position ∧ ev.block_position < 1) ∧
    (∀ (xs : List ℚ) (s : PilotPhaseLock), s.lock_cnt < s.lock_delay →
      ((PilotPhaseLock.process osc mpi ps xs s).1).pps_events = []) ∧
    (∀ (xs : List ℚ) (s : PilotPhaseLock), xs ≠ [] →
      ((PilotPhaseLock.process osc mpi ps xs s).1).lock_cnt
          < ((PilotPhaseLock.process osc mpi ps xs s).1).lock_delay →
      ((PilotPhaseLock.process osc mpi ps xs s).1).pps_events = [] ∧
      ((PilotPhaseLock.process osc mpi ps xs s).1).pilot_periods = 0 ∧
      ((PilotPhaseLock.process osc mpi ps xs s).1).pps_cnt = 0) := by
  refine ⟨?_, ?_, ?_⟩
  · intro xs s ev hev
    by_cases hn : xs.length = 0
    · simp only [PilotPhaseLock.process, if_pos hn] at hev
      exact absurd hev (by simp)
    · simp only [PilotPhaseLock.process, if_neg hn] at hev
      have hloop : ev ∈ ((pllLoop osc mpi ps (decide (s.lock_delay ≤ s.lock_cnt))
          xs.length 0 { s with pps_events := [], pilot_level := 1000 } xs).1).pps_events := by
        split at hev
        · exact absurd hev (by simp)
        · exact hev
      have hmem := pllLoop_events_mem osc mpi ps
        (decide (s.lock_delay ≤ s.lock_cnt)) xs.length xs 0
        { s with pps_events := [], pilot_level := 1000 } (by omega) ev hloop
      rcases hmem with hempty | ⟨j, hj, hbp⟩
      · exact absurd hempty (by simp)
      · have hnpos : (0 : ℚ) < (xs.length : ℚ) := by
          exact_mod_cast Nat.pos_of_ne_zero hn
        refine ⟨j, hj, hbp, ?_, ?_⟩
        · rw [hbp]
          positivity
        · rw [hbp]
          rw [div_lt_one hnpos]
          exact_mod_cast hj
  · intro xs s hlt
    by_cases hn : xs.length = 0
    · simp only [PilotPhaseLock.process, if_pos hn]
    · have hwl : decide (s.lock_delay ≤ s.lock_cnt) = false :=
        decide_eq_false_iff_not.mpr (by omega)
      have hev := pllLoop_events_unlocked osc mpi ps xs.length xs 0
        { s with pps_events := [], pilot_level := 1000 }
      simp only [PilotPhaseLock.process, if_neg hn]
      rw [hwl]
      split
      · rfl
      · exact hev.trans rfl
  · intro xs s hne hlock
    have hn : ¬ xs.length = 0 := fun h => hne (List.length_eq_zero.mp h)
    simp only [PilotPhaseLock.process, if_neg hn] at hlock ⊢
    split at hlock
    · next hc =>
      simp only [if_pos hc]
      refine ⟨?_, ?_, ?_⟩ <;> trivial
    · next hc =>
      exact absurd hlock hc

/-- Witness for C3: a block that starts unlocked yields no PPS events. -/
theorem pll_pps_events_witness :
    (PilotPhaseLock.init oscZero 0 19 1 1).lock_cnt
      < (PilotPhaseLock.init oscZero 0 19 1 1).lock_delay ∧
    ((PilotPhaseLock.process oscZero 0 false [0]
        (PilotPhaseLock.init oscZero 0 19 1 1)).1).pps_events = [] := by
  have hlt : (PilotPhaseLock.init oscZero 0 19 1 1).lock_cnt
      < (PilotPhaseLock.init oscZero 0 19 1 1).lock_delay := by
    simp only [PilotPhaseLock.init]
    norm_num
  exact ⟨hlt, (pll_pps_events oscZero 0 false).2.1 [0]
    (PilotPhaseLock.init oscZero 0 19 1 1) hlt⟩

/-! ## Theorems about FmDecoder (claims C4 and C10) -/

/-- C10: for an empty input block `FmDecoder::process` resizes the audio
output to length zero and returns immediately; the decoder state — AGC,
multipath filter, phase discriminator, pilot PLL, deemphasis, resampler
and filter states, all scratch buffers and all level and stereo-detected
fields — is returned unchanged. -/
theorem fmdecoder_process_empty {A M P D R F C : Type}
    (o : FmOracles A M P D R F C) (s : FmDecoder A M P D R F C) :
    FmDecoder.process o s [] = (s, []) := rfl

/-- The IF-filter stage does not change the configuration flags. -/
theorem fmStageFilter_flags {A M P D R F C : Type}
    (o : FmOracles A M P D R F C) (s : FmDecoder A M P D R F C) :
    (fmStageFilter o s).stereo_enabled = s.stereo_enabled ∧
    (fmStageFilter o s).stereo_detected = s.stereo_detected ∧
    (fmStageFilter o s).pilot_shift = s.pilot_shift := by
  simp only [fmStageFilter]
  split_ifs <;> exact ⟨rfl, rfl, rfl⟩

/-- When the AGC and multipath oracles preserve block length, the filtered
block of the IF-filter stage has the length of the AGC output. -/
theorem fmStageFilter_len {A M P D R F C : Type}
    (o : FmOracles A M P D R F C) (s : FmDecoder A M P D R F C)
    (hmf : ∀ (m : M) (l : List IQSample), ((o.mf_process m l).2).length = l.length) :
    ((fmStageFilter o s).samples_in_filtered).length
      = s.samples_in_after_agc.length := by
  simp only [fmStageFilter]
  split_ifs
  · rfl
  · rfl
  · exact hmf _ _
  · rfl

/-- The stereo stage force-sets the stereo-detected flag
(`m_stereo_detected = true`, FmDecode.cpp line 336), regardless of the
pilot PLL lock state. -/
theorem fmStageStereo_detected {A M P D R F C : Type}
    (o : FmOracles A M P D R F C) (s : FmDecoder A M P D R F C) :
    (fmStageStereo o s).stereo_detected = true := by
  simp only [fmStageStereo]
  split <;> rfl

/-- The output stage does not change the stereo-detected flag. -/
theorem fmStageOutput_detected {A M P D R F C : Type}
    (o : FmOracles A M P D R F C) (s : FmDecoder A M P D R F C) :
    ((fmStageOutput o s).1).stereo_detected = s.stereo_detected := by
  simp only [fmStageOutput]
  split_ifs <;> rfl

/-- C4 fails on the code: with stereo decoding enabled, for EVERY input
block (in particular one containing no 19 kHz pilot) and every behaviour
of the DSP sub-blocks (subject only to the AGC, multipath filter and
discriminator preserving block length, as the real ones do),
`FmDecoder::process` reports `stereo_detected = true` — the flag is
force-set and does not follow the pilot PLL lock at all. -/
theorem stereo_detected_forced {A M P D R F C : Type}
    (o : FmOracles A M P D R F C) (s : FmDecoder A M P D R F C)
    (xs : List IQSample) (hst : s.stereo_enabled = true) (hne : xs ≠ [])
    (hagc : ∀ (a : A) (l : List IQSample), ((o.agc_process a l).2).length = l.length)
    (hmf : ∀ (m : M) (l : List IQSample), ((o.mf_process m l).2).length = l.length)
    (hdisc : ∀ (p : P) (l : List IQSample), ((o.disc_process p l).2).length = l.length) :
    ((FmDecoder.process o s xs).1).stereo_detected = true := by
  have hn : ¬ xs.length = 0 := fun h => hne (List.length_eq_zero.mp h)
  have core : ∀ s1 : FmDecoder A M P D R F C, s1.stereo_enabled = true →
      ¬ s1.samples_in_after_agc.length = 0 →
      ((fmProcessRest o s1).1).stereo_detected = true := by
    intro s1 hst1 hlen1
    have h2 := fmStageFilter_len o s1 hmf
    have hdl : ¬ ((o.disc_process (fmStageFilter o s1).phasedisc
        (fmStageFilter o s1).samples_in_filtered).2.length = 0) := by
      rw [hdisc, h2]
      exact hlen1
    have hse : (fmStageFilter o s1).stereo_enabled = true :=
      (fmStageFilter_flags o s1).1.trans hst1
    simp only [fmProcessRest]
    rw [if_neg hdl, if_pos hse]
    split
    · exact fmStageStereo_detected o _
    · rw [fmStageOutput_detected]
      exact fmStageStereo_detected o _
  simp only [FmDecoder.process, if_neg hn]
  refine core _ hst ?_
  rw [hagc]
  exact hn

/-- Witness for the force-set flag: the trivially instantiated decoder on
a single all-zero IQ sample (an input with no pilot at all) still reports
stereo detected. -/
theorem stereo_detected_forced_witness :
    fmInitTriv.stereo_enabled = true ∧
    ((FmDecoder.process trivOracles fmInitTriv [((0 : ℚ), (0 : ℚ))]).1).stereo_detected
      = true :=
  ⟨rfl, stereo_detected_forced trivOracles fmInitTriv [((0 : ℚ), (0 : ℚ))] rfl
    (by simp) (fun a l => rfl) (fun m l => rfl)
    (fun p l => by simp [trivOracles])⟩

/-! ## Theorems about the WAV header (claim C7) -/

/-- C7: `WavAudioOutput::write_header(nsamples)` produces exactly 44 bytes
with RIFF chunk id, chunk size `36 + 2 * nsamples`, WAVE and fmt tags,
format tag `0x0001` (`WAVE_FORMAT_PCM`) at offset 20, the channel count at
offset 22, the sample rate at offset 24, byte rate
`sampleRate * channels * 2` at offset 28, block align `channels * 2` at
offset 32, 16 bits per sample at offset 34, the data tag and data size
`2 * nsamples` at offset 40 — all little-endian; and on close the header
is rewritten from the final stream position with the recomputed sample
count, which must be divisible by the channel count. -/
theorem wav_header_spec (nsamples ch sr : ℕ) (hch : ch = 1 ∨ ch = 2)
    (hns : 36 + nsamples * 2 < 2 ^ 32) (hsr : sr * ch * 2 < 2 ^ 32) :
    (write_header nsamples ch sr).length = 44 ∧
    (write_header nsamples ch sr).take 4 = [82, 73, 70, 70] ∧
    readU32 (write_header nsamples ch sr) 4 = 36 + 2 * nsamples ∧
    ((write_header nsamples ch sr).drop 8).take 4 = [87, 65, 86, 69] ∧
    ((write_header nsamples ch sr).drop 12).take 4 = [102, 109, 116, 32] ∧
    readU16 (write_header nsamples ch sr) 20 = 1 ∧
    readU16 (write_header nsamples ch sr) 22 = ch ∧
    readU32 (write_header nsamples ch sr) 24 = sr ∧
    readU32 (write_header nsamples ch sr) 28 = sr * ch * 2 ∧
    readU16 (write_header nsamples ch sr) 32 = ch * 2 ∧
    readU16 (write_header nsamples ch sr) 34 = 16 ∧
    ((write_header nsamples ch sr).drop 36).take 4 = [100, 97, 116, 97] ∧
    readU32 (write_header nsamples ch sr) 40 = 2 * nsamples ∧
    (∀ k : ℕ, k % ch = 0 →
      wavCloseHeader ch sr (44 + 2 * k) = some (write_header k ch sr)) := by
  have hchb : 1 ≤ ch ∧ ch ≤ 2 := by rcases hch with h | h <;> omega
  have hsr2 : sr < 2 ^ 32 := by
    have h1 : sr ≤ sr * ch * 2 := by nlinarith [hchb.1]
    omega
  refine ⟨?_, ?_, ?_, ?_, ?_, ?_, ?_, ?_, ?_, ?_, ?_, ?_, ?_, ?_⟩
  · simp [write_header, setValue32, setValue16]
  · simp [write_header, setValue32, setValue16]
  · simp [write_header, setValue32, setValue16, readU32]
    omega
  · simp [write_header, setValue32, setValue16]
  · simp [write_header, setValue32, setValue16]
  · simp [write_header, setValue32, setValue16, readU16]
  · simp [write_header, setValue32, setValue16, readU16]
    omega
  · simp [write_header, setValue32, setValue16, readU32]
    omega
  · simp [write_header, setValue32, setValue16, readU32]
    omega
  · simp [write_header, setValue32, setValue16, readU16]
    omega
  · simp [write_header, setValue32, setValue16, readU16]
  · simp [write_header, setValue32, setValue16]
  · simp [write_header, setValue32, setValue16, readU32]
    omega
  · intro k hk
    have hcond : (44 + 2 * k - 44) % 2 = 0 ∧ ((44 + 2 * k - 44) / 2) % ch = 0 := by
      constructor <;> [omega; (have : (44 + 2 * k - 44) / 2 = k := by omega
                               rw [this]; exact hk)]
    unfold wavCloseHeader
    rw [if_pos hcond]
    have hkk : (44 + 2 * k - 44) / 2 = k := by omega
    rw [hkk]

/-- Witness for C7 at 6 total samples, 2 channels, rate 48000. -/
theorem wav_header_spec_witness :
    ((6 : ℕ) = 1 ∨ (6 : ℕ) = 2 → False) ∧
    (write_header 16000 2 48000).length = 44 ∧
    readU16 (write_header 16000 2 48000) 22 = 2 ∧
    wavCloseHeader 2 48000 (44 + 2 * 6) = some (write_header 6 2 48000) := by
  have h := wav_header_spec 16000 2 48000 (Or.inr rfl) (by norm_num) (by norm_num)
  have h6 := wav_header_spec 6 2 48000 (Or.inr rfl) (by norm_num) (by norm_num)
  exact ⟨by omega, h.1, h.2.2.2.2.2.2.1,
    h6.2.2.2.2.2.2.2.2.2.2.2.2.2 6 (by norm_num)⟩
